import Mathlib

/-
Verification of the SuperLibraryMachine ingestion/indexing pipeline and
retrieval protocol, as a shallow embedding in Lean 4.

Embedded source files:
- pipelinefiles/chunker_updated.py         (namespace Chunker)
- pipelinefiles/embed_chunks_multigpu.py   (namespace EmbedMulti)
- pipelinefiles/build_faiss_index.py       (namespace BuildFaiss)
- web/rag_server.py                        (namespaces RagServer, DbPath)
- web/app.py                               (namespaces WebApp, DbPath)

Modelling conventions: Python machine integers are mapped to Nat (all the
quantities involved are non-negative; where Python subtraction can go
negative this is noted at the definition); external services (the tiktoken
encoder, the SentenceTransformer model, faiss normalize_L2) are parameters
of the embedding; the filesystem, where a claim needs it, is explicit state.
Loops whose index advances by a computed step are embedded with a fuel
argument equal to the loop variant, so every definition is structurally
recursive and kernel-evaluable; the wrapper function passes the exact
variant value, and the invariant "variant <= fuel" is carried through the
proofs.
-/

namespace Chunker

/- Embedding of group_paragraphs_by_min_tokens (chunker_updated.py, lines
30-60).  The tokenizer is external (tiktoken); the function
tc : String -> Nat models the token count s ↦ len(enc.encode(s)). -/

/-- Python " ".join(chunk) (chunker_updated.py line 55). -/
def joinSp (l : List String) : String := String.intercalate " " l

/-- Inner greedy loop of group_paragraphs_by_min_tokens (lines 43-53):
starting at index j with running total `count` and accumulated paragraphs
`acc`, append paragraph j and add its token count, stop as soon as the
running total reaches min_tokens or the paragraphs are exhausted.  The
remaining paragraphs ps[j:] are passed as the list argument, so the
recursion is structural; the returned pair is (chunk, final j). -/
def consumeGo (tc : String → ℕ) (minT : ℕ) :
    List String → ℕ → ℕ → List String → List String × ℕ
  | [], j, _, acc => (acc, j)
  | para :: rest, j, count, acc =>
    let count2 := count + tc para
    if minT ≤ count2 then (acc ++ [para], j + 1)
    else consumeGo tc minT rest (j + 1) count2 (acc ++ [para])

/-- The inner loop entered at position i of ps, with chunk = [] and
token_count = 0 (lines 43-45). -/
def consume (tc : String → ℕ) (minT : ℕ) (ps : List String) (i : ℕ) :
    List String × ℕ :=
  consumeGo tc minT (ps.drop i) i 0 []

/-- The window advance of the outer loop (lines 58-59):
i + max(1, j - i - overlap).  Python computes j - i - overlap over int and
it can be negative, in which case max(1, _) = 1; since j >= i always holds,
truncated Nat subtraction yields the same result. -/
def nextStart (tc : String → ℕ) (minT ov : ℕ) (ps : List String) (i : ℕ) : ℕ :=
  i + max 1 ((consume tc minT ps i).2 - i - ov)

/-- Outer while loop (lines 41-59), fuel-structured; `fuel` bounds the
remaining iterations (the start index increases by at least 1 each
iteration, so ps.length - i iterations always suffice).  Mirrors the
source: when the chunk is nonempty, the final joined text is re-encoded
for the recorded token count (lines 54-57). -/
def groupAux (tc : String → ℕ) (minT ov : ℕ) (ps : List String) :
    ℕ → ℕ → List (String × ℕ)
  | 0, _ => []
  | fuel + 1, i =>
    if i < ps.length then
      let r := consume tc minT ps i
      let entries :=
        if r.1.isEmpty then ([] : List (String × ℕ))
        else
          let t := joinSp r.1
          [(t, tc t)]
      entries ++ groupAux tc minT ov ps fuel (nextStart tc minT ov ps i)
    else []

/-- group_paragraphs_by_min_tokens(paragraphs, min_tokens, overlap):
the outer loop started at i = 0. -/
def group_paragraphs_by_min_tokens (tc : String → ℕ) (minT ov : ℕ)
    (ps : List String) : List (String × ℕ) :=
  groupAux tc minT ov ps ps.length 0

/-- The (start, end) index ranges of the chunks the outer loop emits:
chunk k consumed paragraphs [start, end).  Same recursion structure as
groupAux. -/
def groupRangesAux (tc : String → ℕ) (minT ov : ℕ) (ps : List String) :
    ℕ → ℕ → List (ℕ × ℕ)
  | 0, _ => []
  | fuel + 1, i =>
    if i < ps.length then
      (i, (consume tc minT ps i).2) ::
        groupRangesAux tc minT ov ps fuel (nextStart tc minT ov ps i)
    else []

/-- Ranges of the full run from i = 0. -/
def groupRanges (tc : String → ℕ) (minT ov : ℕ) (ps : List String) :
    List (ℕ × ℕ) :=
  groupRangesAux tc minT ov ps ps.length 0

/- Refinement comparison for claim C2.  The spec states that the running
token count used against the minimum is "re-encoding the running token
count after each addition"; the following variant is modelled from those
words (not from the source): after each paragraph addition the joined
accumulated text is re-encoded and compared against the minimum. -/

/-- Modelled from the spec (claim C2): inner loop that re-encodes the
joined accumulated text after each paragraph addition. -/
def consumeReencodeGo (tc : String → ℕ) (minT : ℕ) :
    List String → ℕ → List String → List String × ℕ
  | [], j, acc => (acc, j)
  | para :: rest, j, acc =>
    let acc2 := acc ++ [para]
    if minT ≤ tc (joinSp acc2) then (acc2, j + 1)
    else consumeReencodeGo tc minT rest (j + 1) acc2

/-- Modelled from the spec (claim C2): the inner re-encoding loop entered
at position i. -/
def consumeReencode (tc : String → ℕ) (minT : ℕ) (ps : List String) (i : ℕ) :
    List String × ℕ :=
  consumeReencodeGo tc minT (ps.drop i) i []

/-- Modelled from the spec (claim C2): outer loop over the re-encoding
inner loop, otherwise identical to groupAux. -/
def groupReencodeAux (tc : String → ℕ) (minT ov : ℕ) (ps : List String) :
    ℕ → ℕ → List (String × ℕ)
  | 0, _ => []
  | fuel + 1, i =>
    if i < ps.length then
      let r := consumeReencode tc minT ps i
      let entries :=
        if r.1.isEmpty then ([] : List (String × ℕ))
        else
          let t := joinSp r.1
          [(t, tc t)]
      entries ++ groupReencodeAux tc minT ov ps fuel (i + max 1 (r.2 - i - ov))
    else []

/-- Modelled from the spec (claim C2): the chunker the spec describes,
re-encoding the running count after each addition. -/
def groupSpecReencode (tc : String → ℕ) (minT ov : ℕ)
    (ps : List String) : List (String × ℕ) :=
  groupReencodeAux tc minT ov ps ps.length 0

end Chunker

namespace EmbedMulti

/- Embedding of embed_chunks_multigpu.py: _chunkify (lines 34-37), the
per-worker write loop of _embed_worker (lines 60-80), and the merge step
of embed_chunks (lines 142-148).  The SentenceTransformer model is
external; embF : α → β models one record being embedded (model.encode on
its text plus attaching the "embedding" field; normalization is folded
into embF since it happens inside model.encode). -/

/-- Python slice lst[i::w]: the elements of lst at indices i, i+w,
i+2w, ..., in order.  For i < w these are exactly the elements whose index
is congruent to i modulo w. -/
def sliceStride (l : List α) (w i : ℕ) : List α :=
  (l.enum.filter (fun p => p.1 % w == i)).map Prod.snd

/-- _chunkify(lst, chunks) = [lst[i::chunks] for i in range(chunks)],
after the guard raising ValueError for chunks <= 0 (lines 35-36).
The int argument is modelled as Nat, so the guard triggers only at 0. -/
def _chunkify (l : List α) (w : ℕ) : Except String (List (List α)) :=
  if w ≤ 0 then .error "chunks must be a positive integer"
  else .ok ((List.range w).map (sliceStride l w))

/-- The batch slices range(0, len(entries), batch_size) of the worker loop
(line 61-66): take B, recurse on the rest.  Python range raises ValueError
on step 0; the B = 0 case is unreachable in the embedding and returns [].
Fuel bounds the iterations; length suffices since each batch consumes at
least one element. -/
def batchesAux (B : ℕ) : ℕ → List α → List (List α)
  | 0, _ => []
  | _ + 1, [] => []
  | fuel + 1, l => l.take B :: batchesAux B fuel (l.drop B)

/-- The list of batches of size B of l (last one possibly shorter). -/
def batches (B : ℕ) (l : List α) : List (List α) :=
  if B = 0 then [] else batchesAux B l.length l

/-- The rows a completed worker writes to its shard file (lines 60-80):
each batch is encoded and its records appended in order, so the file holds
the embedded records of the assigned shard in shard order. -/
def workerWrites (embF : α → β) (B : ℕ) (shard : List α) : List β :=
  ((batches B shard).map (List.map embF)).flatten

/-- The merge step of embed_chunks (lines 142-148): for each rank in shard
order, if the shard file exists its rows are appended to the final output;
a missing shard file (`none`) is silently skipped.  There is no check of
worker exit status before this loop (lines 139-140 only join). -/
def mergeShards (disk : List (Option (List β))) : List β :=
  (disk.filterMap id).flatten

/-- Disk state after all workers are joined, for a run in which worker
`crashed` died before creating its shard file and every other worker
completed: shard r holds the embedded rows of shard r, shard `crashed` is
missing. -/
def diskAfterCrash (embF : α → β) (B : ℕ) (shards : List (List α))
    (crashed : ℕ) : List (Option (List β)) :=
  (List.range shards.length).map fun r =>
    if r = crashed then none else some (workerWrites embF B (shards.getD r []))

end EmbedMulti

namespace BuildFaiss

/-- One parsed line of the embedded-chunk JSONL file, as read by
build_faiss_index (build_faiss_index.py lines 44-58).  The embedding is a
list of rationals standing for the float vector. -/
structure EmbeddedRow where
  source_file : String
  chunk_id : ℕ
  doi : String
  title : String
  text : String
  token_count : Option ℕ
  embedding : List ℚ
deriving DecidableEq

/-- The metadata record appended for one line (lines 49-58). -/
structure MetaRow where
  source_file : String
  chunk_id : ℕ
  doi : String
  title : String
  text : String
  token_count : Option ℕ
deriving DecidableEq

/-- The metadata projection of one parsed line. -/
def metaOf (r : EmbeddedRow) : MetaRow :=
  ⟨r.source_file, r.chunk_id, r.doi, r.title, r.text, r.token_count⟩

/-- The --metric choice (lines 64-68). -/
inductive Metric where
  | l2
  | cosine
deriving DecidableEq

/-- build_faiss_index (lines 44-70): read the file line by line, appending
the vector and the metadata record of the same line; raise ValueError when
no embeddings were read; stack the vectors (for cosine, after the in-place
row-wise faiss.normalize_L2, modelled by the external parameter normRow)
and add them to the index in file order (IndexFlat.add appends rows
sequentially).  The returned pair is (index rows, metadata list). -/
def build_faiss_index (normRow : List ℚ → List ℚ) (metric : Metric)
    (rows : List EmbeddedRow) :
    Except String (List (List ℚ) × List MetaRow) :=
  let embeddings := rows.map (·.embedding)
  let metadata := rows.map metaOf
  if embeddings.isEmpty then .error "No embeddings found"
  else
    let matrix :=
      if metric = Metric.cosine then embeddings.map normRow else embeddings
    .ok (matrix, metadata)

end BuildFaiss

namespace RagServer

/- Embedding of the citation-resolution step of run_rag (rag_server.py
lines 148-157) and of the tail of run_rag from the generation result on
(lines 142-175). -/

/-- Python regex \d over a str: a decimal digit (ASCII model). -/
def isDigitCh (c : Char) : Bool := c.isDigit

/-- Python regex \s over a str (ASCII part): space, tab, newline, carriage
return, vertical tab, form feed. -/
def isSpaceCh (c : Char) : Bool :=
  c = ' ' || c = '\t' || c = '\n' || c = '\r' || c = '\x0b' || c = '\x0c'

/-- Matcher for the part of the regex \[(\d+(?:,\s*\d+)*)\] following the
leading digit run: repeatedly accept ",\s*\d+" and stop at "]".  Returns
(remaining captured characters, rest of the input after the closing
bracket).  The pattern needs no backtracking: when the repetition cannot
continue, dropping it makes \] fail as well, because the next character is
neither "]" (handled first) nor consumable otherwise.  Fuel bounds the
repetitions; each one consumes at least two characters, so the input
length suffices. -/
def matchAfterDigits : ℕ → List Char → Option (List Char × List Char)
  | 0, _ => none
  | _ + 1, [] => none
  | fuel + 1, c :: cs =>
    if c = ']' then some ([], cs)
    else if c = ',' then
      let sp := cs.takeWhile isSpaceCh
      let cs2 := cs.dropWhile isSpaceCh
      let ds := cs2.takeWhile isDigitCh
      let cs3 := cs2.dropWhile isDigitCh
      if ds.isEmpty then none
      else
        match matchAfterDigits fuel cs3 with
        | some (g, rest) => some (',' :: (sp ++ (ds ++ g)), rest)
        | none => none
    else none

/-- Attempt to match \[(\d+(?:,\s*\d+)*)\] at the head of the input;
on success return (capture-group characters, input after the match). -/
def matchCitation : List Char → Option (List Char × List Char)
  | [] => none
  | c :: cs =>
    if c = '[' then
      let ds := cs.takeWhile isDigitCh
      let cs2 := cs.dropWhile isDigitCh
      if ds.isEmpty then none
      else
        match matchAfterDigits cs2.length cs2 with
        | some (g, rest) => some (ds ++ g, rest)
        | none => none
    else none

/-- re.findall scan: try the pattern at each position, left to right; on a
match emit the capture group and continue after the match, otherwise
advance one character.  Fuel bounds the steps; each step consumes at least
one character, so the input length suffices. -/
def findGroupsAux : ℕ → List Char → List (List Char)
  | 0, _ => []
  | _ + 1, [] => []
  | fuel + 1, c :: cs =>
    match matchCitation (c :: cs) with
    | some (g, rest) => g :: findGroupsAux fuel rest
    | none => findGroupsAux fuel cs

/-- re.findall(r"\[(\d+(?:,\s*\d+)*)\]", reply) (line 148): the list of
capture groups, in match order. -/
def findCitationGroups (reply : String) : List (List Char) :=
  findGroupsAux reply.toList.length reply.toList

/-- Python str.split(","): split on commas, keeping empty pieces. -/
def splitComma : List Char → List (List Char)
  | [] => [[]]
  | c :: cs =>
    if c = ',' then [] :: splitComma cs
    else
      match splitComma cs with
      | [] => [[c]]
      | piece :: pieces => (c :: piece) :: pieces

/-- Python str.strip() (ASCII whitespace model): drop leading and trailing
whitespace. -/
def stripChars (cs : List Char) : List Char :=
  ((cs.dropWhile isSpaceCh).reverse.dropWhile isSpaceCh).reverse

/-- Lines 149-152: the set cited_numbers of stripped tokens of all
comma-split pieces of all matched groups.  A Python set is iterated in
unspecified order; it is modelled as the deduplicated list in first-seen
order, and all statements proved about the resulting dict are
order-insensitive. -/
def citedTokens (reply : String) : List String :=
  (((findCitationGroups reply).map
      (fun g => (splitComma g).map (fun p => String.mk (stripChars p)))).flatten).dedup

/-- One retrieved chunk as stored in chunk_lookup (line 130); `doi = none`
models a metadata record without a "doi" key. -/
structure ChunkMeta where
  doi : Option String
deriving DecidableEq

/-- chunk.get("doi", "N/A") (line 157). -/
def doiOrNA (c : ChunkMeta) : String := c.doi.getD "N/A"

/-- The value citation_dict receives for a cited token (lines 155-157):
the DOI recorded for that rank string, or the "N/A" sentinel when the
lookup has no entry (chunk_lookup.get returning None) or the entry lacks a
DOI. -/
def citationValue (lookup : String → Option ChunkMeta) (num : String) : String :=
  match lookup num with
  | some c => doiOrNA c
  | none => "N/A"

/-- citation_dict (lines 154-157) as a map: a key is present exactly when
it is a cited token, and then carries citationValue. -/
def citationMap (lookup : String → Option ChunkMeta) (reply : String) :
    String → Option String :=
  fun num =>
    if num ∈ citedTokens reply then some (citationValue lookup num) else none

/-- Decimal value of a digit token (for stating claim C8, which speaks of
the cited integers). -/
def digitsToNat (cs : List Char) : ℕ :=
  cs.foldl (fun n c => n * 10 + (c.toNat - '0'.toNat)) 0

/-- The distinct cited integers of a reply, as claim C8 reads the code. -/
def citedIntegers (reply : String) : List ℕ :=
  ((citedTokens reply).map (fun t => digitsToNat t.toList)).dedup

/-- A per-query lookup with exactly rank "1" present, carrying a DOI
(concrete instance for the claim C8 counterexample). -/
def lookupRank1 : String → Option ChunkMeta :=
  fun num => if num = "1" then some ⟨some "10.1000/demo"⟩ else none

/-- The tail of run_rag from the generation result on (lines 142-175).
`reply = none` models call_openai_chat returning None after its retries,
in which case run_rag returns the sentinel error answer and an empty map
before ever reaching the logging step (lines 144-145).  Otherwise the
citation map is computed (pure), and then the audit-log write runs: the
mkdir / open / write of lines 169-173 are not wrapped in any handler, so
an OS error there (`logWrite = .error e`) propagates out of run_rag,
modelled as Except.error; only when the write succeeds does run_rag return
the (answer, citation map) pair (line 175). -/
def run_rag_from_reply (lookup : String → Option ChunkMeta)
    (reply : Option String) (logWrite : Except String Unit) :
    Except String (String × (String → Option String)) :=
  match reply with
  | none => .ok ("❌ Error generating answer. Try again.", fun _ => none)
  | some r =>
    match logWrite with
    | .error e => .error e
    | .ok _ => .ok (r, citationMap lookup r)

/-- Grammar of the tail of a capture group after the leading digit run:
zero or more repetitions of a comma, optional whitespace, and a nonempty
digit run.  Exactly the strings matchAfterDigits can emit. -/
inductive GroupTail : List Char → Prop
  | nil : GroupTail []
  | cons (sp ds g : List Char) :
      (∀ c ∈ sp, isSpaceCh c = true) →
      ds ≠ [] →
      (∀ c ∈ ds, isDigitCh c = true) →
      GroupTail g →
      GroupTail (',' :: (sp ++ (ds ++ g)))

end RagServer

namespace WebApp

/- Embedding of the filesystem-level control flow of app.build_database
(app.py lines 94-228) and rag_server.list_databases (rag_server.py lines
62-69).  The database root directory is modelled as the list of its
subdirectories; for each one only the fact needed by the listing check is
kept: whether faiss_index.idx exists inside it. -/

/-- One subdirectory of the database root. -/
structure DbDir where
  name : String
  hasIndex : Bool
deriving DecidableEq

/-- The database root directory contents. -/
abbrev DbRoot := List DbDir

/-- list_databases (rag_server.py lines 62-69): the sorted names of the
subdirectories that contain faiss_index.idx. -/
def list_databases (fs : DbRoot) : List String :=
  List.insertionSort (· ≤ ·) ((fs.filter (·.hasIndex)).map (·.name))

/-- VALID_DB_NAME = ^[A-Za-z0-9._-]+$ (app.py line 29). -/
def validDbName (s : String) : Bool :=
  !s.isEmpty && s.toList.all fun c => c.isAlphanum || c = '.' || c = '_' || c = '-'

/-- Outcome of one build request, as far as the filesystem is concerned. -/
inductive BuildResult where
  | badName
  | alreadyExists
  | pipelineFailed
  | built
deriving DecidableEq

/-- build_database (app.py lines 94-228), filesystem-level control flow:
reject an invalid name (lines 101-104); reject an existing target (lines
127-128); create the target directory (line 131); run the pipeline, whose
outcome is the parameter `pipelineOk` — when it succeeds its final stage
build_faiss_index has written faiss_index.idx into the target, and when it
fails the index artifact may or may not have been written before the
failing point (`crashHasIndex`); on failure, shutil.rmtree(target_dir,
ignore_errors=True) (line 213) removes the target, modelled as the
deletion succeeding.  Elided as irrelevant to the filesystem claims:
request parsing, the papers-directory checks, option marshalling, log
capture, and the build lock. -/
def build_database (fs : DbRoot) (name : String) (pipelineOk : Bool)
    (crashHasIndex : Bool) : DbRoot × BuildResult :=
  if ¬ validDbName name then (fs, .badName)
  else if fs.any (fun d => d.name = name) then (fs, .alreadyExists)
  else
    let fs1 : DbRoot := fs ++ [⟨name, false⟩]
    if pipelineOk then
      (fs1.map fun d => if d.name = name then ⟨name, true⟩ else d, .built)
    else
      let fsCrash : DbRoot :=
        fs1.map fun d => if d.name = name then ⟨name, crashHasIndex⟩ else d
      (fsCrash.filter fun d => d.name ≠ name, .pipelineFailed)

end WebApp

namespace DbPath

/- Embedding of the path containment checks: load_db (rag_server.py lines
72-75) and the target-path validation of build_database (app.py lines
120-125).  A resolved absolute path is the list of its components from the
filesystem root; resolution is symlink-free.  A database name is split on
"/" as Python PurePath parsing does; when the name is absolute (leading
"/"), Path.__truediv__ discards the base entirely. -/

/-- Split a character list at every "/" (pieces may be empty, as in
Python path parsing of "a//b"). -/
def splitSlashChars : List Char → List (List Char)
  | [] => [[]]
  | c :: cs =>
    if c = '/' then [] :: splitSlashChars cs
    else
      match splitSlashChars cs with
      | [] => [[c]]
      | piece :: pieces => (c :: piece) :: pieces

/-- Split a name into raw path components. -/
def splitSlash (s : String) : List String :=
  (splitSlashChars s.toList).map String.mk

/-- A name starting with "/" is absolute and replaces the base path. -/
def nameIsAbsolute (name : String) : Bool :=
  match name.toList with
  | '/' :: _ => true
  | _ => false

/-- Path.resolve on a component list: empty components and "." disappear,
".." removes the previous component (at the filesystem root it stays at
the root). -/
def resolveComps (comps : List String) : List String :=
  comps.foldl
    (fun acc c =>
      if c = "" ∨ c = "." then acc
      else if c = ".." then acc.dropLast
      else acc ++ [c])
    []

/-- (DB_BASE_PATH / db_name).resolve() (rag_server.py line 73, app.py line
120), over an already-resolved root. -/
def resolvedDbPath (root : List String) (name : String) : List String :=
  resolveComps ((if nameIsAbsolute name then [] else root) ++ splitSlash name)

/-- root ∈ path.parents for resolved absolute paths: root is a proper
leading segment of path. -/
def isUnder (root p : List String) : Bool :=
  decide (root.length < p.length) && p.take root.length == root

/-- The load_db acceptance check (rag_server.py lines 73-75): load_db
raises ValueError — before reading any file — exactly when this is false,
i.e. when the root is neither a proper ancestor of the resolved path nor
equal to it. -/
def loadDbAccepts (root : List String) (name : String) : Bool :=
  let p := resolvedDbPath root name
  isUnder root p || p == root

/-- Outcome of the name/path validation of build_database before any
directory is created: the regex check (app.py line 103) runs first, then
target_dir.relative_to(DB_BASE_PATH) (lines 121-125), which succeeds
exactly when the root is a (possibly equal) leading segment of the target;
both rejections happen before the mkdir at line 131. -/
inductive BuildPathCheck where
  | rejectedName
  | rejectedPath
  | acceptedAt (p : List String)
deriving DecidableEq

/-- The build-side validation of the target path. -/
def buildPathCheck (root : List String) (name : String) : BuildPathCheck :=
  if ¬ WebApp.validDbName name then .rejectedName
  else
    let p := resolvedDbPath root name
    if p.take root.length ≠ root then .rejectedPath
    else .acceptedAt p

end DbPath

namespace Chunker

/-- Shape of the inner greedy loop: it consumes a nonempty (when possible)
number k of leading paragraphs, appends them to the accumulator, and
advances the index by exactly k. -/
theorem consumeGo_spec (tc : String → ℕ) (minT : ℕ) :
    ∀ (l : List String) (j count : ℕ) (acc : List String),
      ∃ k, k ≤ l.length ∧ (l ≠ [] → 1 ≤ k) ∧
        consumeGo tc minT l j count acc = (acc ++ l.take k, j + k) := by
  intro l
  induction l with
  | nil =>
    intro j count acc
    exact ⟨0, by simp [consumeGo]⟩
  | cons para rest ih =>
    intro j count acc
    by_cases h : minT ≤ count + tc para
    · refine ⟨1, by simp, fun _ => le_refl 1, ?_⟩
      simp [consumeGo, h]
    · obtain ⟨k, hk, _, heq⟩ := ih (j + 1) (count + tc para) (acc ++ [para])
      refine ⟨k + 1, by simp; omega, fun _ => by omega, ?_⟩
      simp only [consumeGo, if_neg h, heq, List.take_succ_cons, Prod.mk.injEq]
      constructor
      · simp
      · omega

/-- Shape of consume: it returns a slice ps[i : i + k] together with the
index i + k, for some k with 1 <= k when i is in range. -/
theorem consume_spec (tc : String → ℕ) (minT : ℕ) (ps : List String) (i : ℕ) :
    ∃ k, k ≤ ps.length - i ∧ (i < ps.length → 1 ≤ k) ∧
      consume tc minT ps i = ((ps.drop i).take k, i + k) := by
  obtain ⟨k, hk, h1, heq⟩ := consumeGo_spec tc minT (ps.drop i) i 0 []
  refine ⟨k, by simpa using hk, fun h => h1 ?_, by simpa using heq⟩
  intro hnil
  have := List.length_drop i ps ▸ congrArg List.length hnil
  simp at this
  omega

/-- The inner loop strictly advances the index when it starts in range. -/
theorem consume_snd_lt (tc : String → ℕ) (minT : ℕ) (ps : List String)
    (i : ℕ) (h : i < ps.length) : i < (consume tc minT ps i).2 := by
  obtain ⟨k, _, h1, heq⟩ := consume_spec tc minT ps i
  rw [heq]
  have := h1 h
  simp
  omega

/-- The inner loop never runs past the end of the paragraph list. -/
theorem consume_snd_le (tc : String → ℕ) (minT : ℕ) (ps : List String)
    (i : ℕ) (h : i ≤ ps.length) : (consume tc minT ps i).2 ≤ ps.length := by
  obtain ⟨k, hk, _, heq⟩ := consume_spec tc minT ps i
  rw [heq]
  simp
  omega

/-- The chunk the inner loop accumulates is exactly the paragraph slice
from its start index to its final index. -/
theorem consume_fst_slice (tc : String → ℕ) (minT : ℕ) (ps : List String)
    (i : ℕ) :
    (consume tc minT ps i).1 =
      (ps.drop i).take ((consume tc minT ps i).2 - i) := by
  obtain ⟨k, _, _, heq⟩ := consume_spec tc minT ps i
  rw [heq]
  simp

/-- A chunk started in range is nonempty. -/
theorem consume_fst_ne (tc : String → ℕ) (minT : ℕ) (ps : List String)
    (i : ℕ) (h : i < ps.length) : (consume tc minT ps i).1 ≠ [] := by
  obtain ⟨k, _, h1, heq⟩ := consume_spec tc minT ps i
  rw [heq]
  intro hnil
  rcases List.take_eq_nil_iff.mp hnil with h0 | h0
  · exact absurd h0 (by have := h1 h; omega)
  · have := List.length_drop i ps ▸ congrArg List.length h0
    simp at this
    omega

/-- The window start strictly increases at every outer-loop iteration. -/
theorem nextStart_gt (tc : String → ℕ) (minT ov : ℕ) (ps : List String)
    (i : ℕ) : i < nextStart tc minT ov ps i := by
  have := le_max_left 1 ((consume tc minT ps i).2 - i - ov)
  simp only [nextStart]
  omega

/-- The next window start never exceeds the end of the chunk just emitted
(no paragraph gap between consecutive chunks). -/
theorem nextStart_le (tc : String → ℕ) (minT ov : ℕ) (ps : List String)
    (i : ℕ) (h : i < ps.length) :
    nextStart tc minT ov ps i ≤ (consume tc minT ps i).2 := by
  have hj := consume_snd_lt tc minT ps i h
  have hmax : max 1 ((consume tc minT ps i).2 - i - ov) ≤
      (consume tc minT ps i).2 - i := Nat.max_le.mpr ⟨by omega, by omega⟩
  simp only [nextStart]
  omega

/-- The chunks the outer loop emits are exactly the joined texts of the
ranges it walks, each recorded with the re-encoded count of its joined
text. -/
theorem groupAux_eq_ranges_map (tc : String → ℕ) (minT ov : ℕ)
    (ps : List String) :
    ∀ fuel i, groupAux tc minT ov ps fuel i =
      (groupRangesAux tc minT ov ps fuel i).map
        (fun r => (joinSp ((ps.drop r.1).take (r.2 - r.1)),
                   tc (joinSp ((ps.drop r.1).take (r.2 - r.1))))) := by
  intro fuel
  induction fuel with
  | zero => intro i; simp [groupAux, groupRangesAux]
  | succ fuel ih =>
    intro i
    by_cases h : i < ps.length
    · have hne : ((consume tc minT ps i).1.isEmpty) = false := by
        simp [List.isEmpty_iff]
        exact consume_fst_ne tc minT ps i h
      simp only [groupAux, groupRangesAux, if_pos h, hne, List.map_cons,
        Bool.false_eq_true, if_false, ih]
      rw [consume_fst_slice]
      simp
    · simp [groupAux, groupRangesAux, h]

/-- The head of a nonempty range list starts at the entry index. -/
theorem groupRangesAux_head_start (tc : String → ℕ) (minT ov : ℕ)
    (ps : List String) :
    ∀ fuel i r, (groupRangesAux tc minT ov ps fuel i).head? = some r →
      r.1 = i := by
  intro fuel i r
  cases fuel with
  | zero => simp [groupRangesAux]
  | succ fuel =>
    by_cases h : i < ps.length
    · simp only [groupRangesAux, if_pos h, List.head?_cons, Option.some.injEq]
      intro hr
      rw [← hr]
    · simp [groupRangesAux, h]

/-- Consecutive emitted ranges have strictly increasing start indices. -/
theorem groupRangesAux_chain_lt (tc : String → ℕ) (minT ov : ℕ)
    (ps : List String) :
    ∀ fuel i, List.Chain' (fun a b : ℕ × ℕ => a.1 < b.1)
      (groupRangesAux tc minT ov ps fuel i) := by
  intro fuel
  induction fuel with
  | zero => intro i; simp [groupRangesAux]
  | succ fuel ih =>
    intro i
    by_cases h : i < ps.length
    · simp only [groupRangesAux, if_pos h]
      refine List.chain'_cons'.mpr ⟨?_, ih _⟩
      intro b hb
      have hstart := groupRangesAux_head_start tc minT ov ps fuel _ b
        (Option.mem_def.mp hb)
      rw [hstart]
      exact nextStart_gt tc minT ov ps i
    · simp [groupRangesAux, h]

/-- The start of each range never exceeds the end of the previous range:
consecutive chunks leave no paragraph gap. -/
theorem groupRangesAux_chain_nogap (tc : String → ℕ) (minT ov : ℕ)
    (ps : List String) :
    ∀ fuel i, List.Chain' (fun a b : ℕ × ℕ => b.1 ≤ a.2)
      (groupRangesAux tc minT ov ps fuel i) := by
  intro fuel
  induction fuel with
  | zero => intro i; simp [groupRangesAux]
  | succ fuel ih =>
    intro i
    by_cases h : i < ps.length
    · simp only [groupRangesAux, if_pos h]
      refine List.chain'_cons'.mpr ⟨?_, ih _⟩
      intro b hb
      have hstart := groupRangesAux_head_start tc minT ov ps fuel _ b
        (Option.mem_def.mp hb)
      rw [hstart]
      exact nextStart_le tc minT ov ps i h
    · simp [groupRangesAux, h]

/-- Every paragraph index from the entry index on is covered by some
emitted range, provided the fuel is at least the loop variant. -/
theorem groupRangesAux_coverage (tc : String → ℕ) (minT ov : ℕ)
    (ps : List String) :
    ∀ fuel i idx, ps.length - i ≤ fuel → i ≤ idx → idx < ps.length →
      ∃ r ∈ groupRangesAux tc minT ov ps fuel i, r.1 ≤ idx ∧ idx < r.2 := by
  intro fuel
  induction fuel with
  | zero => intro i idx hfuel hle hlt; omega
  | succ fuel ih =>
    intro i idx hfuel hle hlt
    have h : i < ps.length := Nat.lt_of_le_of_lt hle hlt
    simp only [groupRangesAux, if_pos h]
    by_cases hidx : idx < (consume tc minT ps i).2
    · exact ⟨(i, (consume tc minT ps i).2), List.mem_cons_self _ _,
        hle, hidx⟩
    · have hstep := nextStart_gt tc minT ov ps i
      have hend := nextStart_le tc minT ov ps i h
      obtain ⟨r, hr, hcov⟩ := ih (nextStart tc minT ov ps i) idx
        (by omega) (by omega) hlt
      exact ⟨r, List.mem_cons_of_mem _ hr, hcov⟩

end Chunker

/-- C7: for every paragraph sequence, every tokenizer, every minimum and
every overlap, each iteration of the outer chunking loop advances the
window start index by at least 1 — the step is max(1, consumed − overlap)
— so the start indices of the emitted chunks are strictly increasing and
the loop terminates even when the overlap is at least the number of
paragraphs consumed. -/
theorem c7_window_advances (tc : String → ℕ) (minT ov : ℕ)
    (ps : List String) :
    (∀ i, i < ps.length → i + 1 ≤ Chunker.nextStart tc minT ov ps i) ∧
    List.Chain' (fun a b : ℕ × ℕ => a.1 < b.1)
      (Chunker.groupRanges tc minT ov ps) := by
  constructor
  · intro i _
    exact Chunker.nextStart_gt tc minT ov ps i
  · exact Chunker.groupRangesAux_chain_lt tc minT ov ps ps.length 0

/-- Witness for C7 at a concrete input: for the two-paragraph list the
first iteration advances the start from 0 to at least 1 even with an
overlap of 3 exceeding the paragraphs consumed. -/
theorem c7_witness :
    0 < (["ab", "cd"] : List String).length ∧
      0 + 1 ≤ Chunker.nextStart String.length 5 3 ["ab", "cd"] 0 :=
  ⟨by decide, (c7_window_advances String.length 5 3 ["ab", "cd"]).1 0 (by decide)⟩

/-- C10: for every non-empty paragraph list, tokenizer, minimum and
overlap, every paragraph index lies in at least one emitted chunk range;
the next chunk never starts later than the point where the previous chunk
ended (no gap); and each emitted chunk is exactly the joined text of the
contiguous paragraph slice of its range, with its re-encoded count. -/
theorem c10_chunks_cover_all_paragraphs (tc : String → ℕ) (minT ov : ℕ)
    (ps : List String) (hne : ps ≠ []) :
    (∀ idx, idx < ps.length →
      ∃ r ∈ Chunker.groupRanges tc minT ov ps, r.1 ≤ idx ∧ idx < r.2) ∧
    List.Chain' (fun a b : ℕ × ℕ => b.1 ≤ a.2)
      (Chunker.groupRanges tc minT ov ps) ∧
    Chunker.group_paragraphs_by_min_tokens tc minT ov ps =
      (Chunker.groupRanges tc minT ov ps).map
        (fun r => (Chunker.joinSp ((ps.drop r.1).take (r.2 - r.1)),
                   tc (Chunker.joinSp ((ps.drop r.1).take (r.2 - r.1))))) := by
  refine ⟨?_, ?_, ?_⟩
  · intro idx hidx
    exact Chunker.groupRangesAux_coverage tc minT ov ps ps.length 0 idx
      (by omega) (Nat.zero_le idx) hidx
  · exact Chunker.groupRangesAux_chain_nogap tc minT ov ps ps.length 0
  · exact Chunker.groupAux_eq_ranges_map tc minT ov ps ps.length 0

/-- Witness for C10 at a concrete input. -/
theorem c10_witness :
    (["ab", "cd"] : List String) ≠ [] ∧
      ((∀ idx, idx < (["ab", "cd"] : List String).length →
        ∃ r ∈ Chunker.groupRanges String.length 5 1 ["ab", "cd"],
          r.1 ≤ idx ∧ idx < r.2) ∧
      List.Chain' (fun a b : ℕ × ℕ => b.1 ≤ a.2)
        (Chunker.groupRanges String.length 5 1 ["ab", "cd"]) ∧
      Chunker.group_paragraphs_by_min_tokens String.length 5 1 ["ab", "cd"] =
        (Chunker.groupRanges String.length 5 1 ["ab", "cd"]).map
          (fun r => (Chunker.joinSp ((["ab", "cd"].drop r.1).take (r.2 - r.1)),
            String.length
              (Chunker.joinSp ((["ab", "cd"].drop r.1).take (r.2 - r.1)))))) :=
  ⟨by decide, c10_chunks_cover_all_paragraphs String.length 5 1 ["ab", "cd"]
    (by decide)⟩

/-- C2 counterexample: the claim states that the running token count used
against the minimum is obtained by re-encoding the joined text after each
paragraph addition; the code instead sums the per-paragraph counts
(chunker_updated.py lines 48-49).  Under the token counter String.length
(a stand-in for any encoder whose count over joined text differs from the
sum over the parts — here each joining space adds one), with minimum 5 and
overlap 0 on ["ab", "cd", "ef"]: the code sums 2+2+2 and closes the first
chunk only at the third paragraph, while the re-encoding policy described
by the claim reaches 5 at "ab cd" and closes after two paragraphs.  The
two chunkings differ, refuting the claimed running-count policy. -/
theorem c2_running_count_counterexample :
    Chunker.group_paragraphs_by_min_tokens String.length 5 0
        ["ab", "cd", "ef"] = [("ab cd ef", 8)] ∧
    Chunker.groupSpecReencode String.length 5 0 ["ab", "cd", "ef"] =
      [("ab cd", 5), ("ef", 2)] ∧
    Chunker.group_paragraphs_by_min_tokens String.length 5 0
        ["ab", "cd", "ef"] ≠
      Chunker.groupSpecReencode String.length 5 0 ["ab", "cd", "ef"] :=
  ⟨by decide, by decide, by decide⟩

/-- C2 (amended): every chunk the Chunker emits records a token count
computed by re-encoding the chunk final joined text — this half of the
claim holds — and each chunk text is the space-joined contiguous paragraph
slice of its range; the running count used to decide when the minimum is
reached, however, is the sum of per-paragraph counts, not a re-encoding
(see the counterexample). -/
theorem c2_recorded_count_reencodes_joined_text (tc : String → ℕ)
    (minT ov : ℕ) (ps : List String) :
    ∀ p ∈ Chunker.group_paragraphs_by_min_tokens tc minT ov ps,
      p.2 = tc p.1 ∧
      ∃ r ∈ Chunker.groupRanges tc minT ov ps,
        p.1 = Chunker.joinSp ((ps.drop r.1).take (r.2 - r.1)) := by
  intro p hp
  rw [Chunker.group_paragraphs_by_min_tokens,
    Chunker.groupAux_eq_ranges_map] at hp
  obtain ⟨r, hr, hpr⟩ := List.mem_map.mp hp
  refine ⟨?_, r, hr, ?_⟩
  · rw [← hpr]
  · rw [← hpr]

/-- Witness for C2 (amended) at a concrete input. -/
theorem c2_witness :
    ("ab cd", 5) ∈
        Chunker.group_paragraphs_by_min_tokens String.length 5 0 ["ab", "cd"] ∧
      ((("ab cd", 5) : String × ℕ).2 = String.length ("ab cd", 5).1 ∧
        ∃ r ∈ Chunker.groupRanges String.length 5 0 ["ab", "cd"],
          (("ab cd", 5) : String × ℕ).1 =
            Chunker.joinSp ((["ab", "cd"].drop r.1).take (r.2 - r.1))) :=
  ⟨by decide, c2_recorded_count_reencodes_joined_text String.length 5 0
    ["ab", "cd"] ("ab cd", 5) (by decide)⟩

namespace EmbedMulti

/-- The enumerated list has no duplicate entries (indices are distinct). -/
theorem enum_nodup (l : List α) : l.enum.Nodup :=
  (List.nodup_enum_map_fst l).of_map

/-- Concatenating the residue-class filters of a duplicate-free list over
all residues modulo w is a permutation of the list. -/
theorem flatten_stride_filter_perm (E : List (ℕ × α)) (w : ℕ) (hw : 1 ≤ w)
    (hE : E.Nodup) :
    (((List.range w).map (fun i => E.filter (fun p => p.1 % w == i))).flatten).Perm
      E := by
  refine (List.perm_ext_iff_of_nodup ?_ hE).mpr ?_
  · rw [List.nodup_flatten]
    constructor
    · intro s hs
      obtain ⟨i, _, rfl⟩ := List.mem_map.mp hs
      exact hE.filter _
    · rw [List.pairwise_map]
      refine (List.pairwise_lt_range w).imp ?_
      intro i j hij
      rw [List.disjoint_left]
      intro a hai haj
      have h1 := (List.mem_filter.mp hai).2
      have h2 := (List.mem_filter.mp haj).2
      simp only [beq_iff_eq] at h1 h2
      omega
  · intro a
    simp only [List.mem_flatten, List.mem_map, List.mem_range]
    constructor
    · rintro ⟨s, ⟨i, _, rfl⟩, ha⟩
      exact (List.mem_filter.mp ha).1
    · intro ha
      refine ⟨E.filter (fun p => p.1 % w == a.1 % w), ⟨a.1 % w, ?_, rfl⟩, ?_⟩
      · exact Nat.mod_lt _ (by omega)
      · exact List.mem_filter.mpr ⟨ha, by simp⟩

/-- Concatenating the round-robin shards in shard order is a permutation
of the input list. -/
theorem chunkify_flatten_perm (l : List α) (w : ℕ) (hw : 1 ≤ w) :
    (((List.range w).map (sliceStride l w)).flatten).Perm l := by
  have hE := flatten_stride_filter_perm l.enum w hw (enum_nodup l)
  have hmap :
      ((List.range w).map (sliceStride l w)).flatten =
        (((List.range w).map
            (fun i => l.enum.filter (fun p => p.1 % w == i))).flatten).map
          Prod.snd := by
    rw [List.map_flatten, List.map_map]
    rfl
  rw [hmap]
  have := hE.map Prod.snd
  rwa [List.enum_map_snd] at this

/-- Each round-robin shard is a sublist of the input: the relative order
of the records assigned to one worker is preserved. -/
theorem sliceStride_sublist (l : List α) (w i : ℕ) :
    (sliceStride l w i).Sublist l := by
  have h := (List.filter_sublist (p := fun p : ℕ × α => p.1 % w == i)
    l.enum).map Prod.snd
  rwa [List.enum_map_snd] at h

/-- Concatenating the batch slices recovers the worker shard. -/
theorem batchesAux_flatten (B : ℕ) (hB : 1 ≤ B) :
    ∀ fuel (l : List α), l.length ≤ fuel →
      (batchesAux B fuel l).flatten = l := by
  intro fuel
  induction fuel with
  | zero =>
    intro l h
    have : l = [] := List.length_eq_zero.mp (by omega)
    subst this
    simp [batchesAux]
  | succ fuel ih =>
    intro l h
    cases l with
    | nil => simp [batchesAux]
    | cons a rest =>
      have hlen : rest.length + 1 ≤ fuel + 1 := by simpa using h
      simp only [batchesAux, List.flatten_cons]
      rw [ih ((a :: rest).drop B)
        (by simp only [List.length_drop, List.length_cons]; omega)]
      exact List.take_append_drop B (a :: rest)

/-- The rows a completed worker writes are exactly the embeddings of its
shard, in shard order (batching only slices the traversal). -/
theorem workerWrites_eq_map (embF : α → β) (B : ℕ) (hB : 1 ≤ B)
    (shard : List α) : workerWrites embF B shard = shard.map embF := by
  rw [workerWrites, ← List.map_flatten, batches, if_neg (by omega),
    batchesAux_flatten B hB shard.length shard (le_refl _)]

/-- The merge loop appends the contents of present shard files and skips
missing ones. -/
theorem mergeShards_eq (disk : List (Option (List β))) :
    mergeShards disk = (disk.map (fun o => o.getD [])).flatten := by
  induction disk with
  | nil => rfl
  | cons o rest ih =>
    cases o with
    | none => simpa [mergeShards, List.filterMap_cons] using ih
    | some s =>
      simp only [mergeShards, List.filterMap_cons] at ih ⊢
      simp [ih]

/-- Mapping a function that sends index k to [] and flattening equals
dropping index k first. -/
theorem flatten_map_ite_filter {γ δ : Type} [DecidableEq γ] (L : List γ)
    (k : γ) (f : γ → List δ) :
    (L.map (fun r => if r = k then ([] : List δ) else f r)).flatten =
      ((L.filter (fun r => r ≠ k)).map f).flatten := by
  induction L with
  | nil => rfl
  | cons a rest ih =>
    by_cases h : a = k
    · subst h
      simp [ih]
    · simp [h, ih]

end EmbedMulti

/-- C6: for every record list and every worker count w with 1 ≤ w ≤
number of records, the round-robin partition _chunkify succeeds and yields
w shards; each shard preserves the relative order of its assigned records
(it is a sublist of the input); and concatenating the shards in shard
order is a permutation of the input — as a multiset it is exactly the
input record set, so no record is lost and none is duplicated, and every
record lands in exactly one shard. -/
theorem c6_roundrobin_partition {α : Type} (l : List α) (w : ℕ)
    (hw1 : 1 ≤ w) (hw2 : w ≤ l.length) :
    ∃ shards, EmbedMulti._chunkify l w = .ok shards ∧
      shards.length = w ∧
      (∀ s ∈ shards, s.Sublist l) ∧
      shards.flatten.Perm l ∧
      (shards.flatten : Multiset α) = (l : Multiset α) := by
  refine ⟨(List.range w).map (EmbedMulti.sliceStride l w), ?_, by simp,
    ?_, ?_, ?_⟩
  · rw [EmbedMulti._chunkify, if_neg (by omega)]
  · intro s hs
    obtain ⟨i, _, rfl⟩ := List.mem_map.mp hs
    exact EmbedMulti.sliceStride_sublist l w i
  · exact EmbedMulti.chunkify_flatten_perm l w hw1
  · exact Multiset.coe_eq_coe.mpr (EmbedMulti.chunkify_flatten_perm l w hw1)

/-- Witness for C6 at a concrete input: [10, 20, 30] split across two
workers as [[10, 30], [20]]. -/
theorem c6_witness :
    1 ≤ 2 ∧ 2 ≤ ([10, 20, 30] : List ℕ).length ∧
      ∃ shards, EmbedMulti._chunkify ([10, 20, 30] : List ℕ) 2 = .ok shards ∧
        shards.length = 2 ∧
        (∀ s ∈ shards, s.Sublist [10, 20, 30]) ∧
        shards.flatten.Perm [10, 20, 30] ∧
        (shards.flatten : Multiset ℕ) = ([10, 20, 30] : Multiset ℕ) :=
  ⟨by decide, by decide, c6_roundrobin_partition [10, 20, 30] 2
    (by decide) (by decide)⟩

/-- C1 counterexample: the claim states that there is no partial-success
path in which the merged embedded-chunk file is produced from only the
surviving workers' shards.  The code joins the worker processes without
inspecting their exit status (embed_chunks_multigpu.py lines 139-140) and
then concatenates whichever shard files exist (lines 142-148, the
shard_file.exists() guard).  Concretely: two records [1, 2] split over two
workers as [[1], [2]]; worker 1 dies before creating its shard file while
worker 0 completes (with squaring as the stand-in embedding and the
default batch size 2048); the merge still produces the final file, equal
to the surviving shard [1] — record 2 is silently dropped and the build is
reported successful. -/
theorem c1_partial_merge_counterexample :
    EmbedMulti._chunkify ([1, 2] : List ℕ) 2 = .ok [[1], [2]] ∧
    EmbedMulti.diskAfterCrash (fun n : ℕ => n * n) 2048 [[1], [2]] 1 =
      [some [1], none] ∧
    EmbedMulti.mergeShards [some ([1] : List ℕ), none] = [1] ∧
    EmbedMulti.mergeShards [some ([1] : List ℕ), none] ≠ [1, 4] :=
  ⟨rfl, by decide, by decide, by decide⟩

/-- C1 (amended): the embed_chunks coordinator has no failure detection:
after joining all workers it concatenates whichever shard files exist, in
shard-index order.  If worker k dies before creating its shard file and
every other worker completes, the merged embedded-chunk file is still
produced and equals the concatenation of the surviving workers' embedded
shards in shard order — the records of shard k are silently absent. -/
theorem c1_merge_concatenates_surviving_shards {α β : Type}
    (embF : α → β) (B : ℕ) (entries : List α) (w k : ℕ)
    (hw : 1 ≤ w) (hB : 1 ≤ B) :
    ∃ shards, EmbedMulti._chunkify entries w = .ok shards ∧
      EmbedMulti.mergeShards (EmbedMulti.diskAfterCrash embF B shards k) =
        (((List.range w).filter (fun r => r ≠ k)).map
          (fun r => (EmbedMulti.sliceStride entries w r).map embF)).flatten := by
  refine ⟨(List.range w).map (EmbedMulti.sliceStride entries w), ?_, ?_⟩
  · rw [EmbedMulti._chunkify, if_neg (by omega)]
  · rw [EmbedMulti.mergeShards_eq, EmbedMulti.diskAfterCrash]
    simp only [List.length_map, List.length_range, List.map_map]
    rw [List.map_congr_left (g := fun r =>
        if r = k then ([] : List β)
        else (EmbedMulti.sliceStride entries w r).map embF) ?_]
    · exact EmbedMulti.flatten_map_ite_filter (List.range w) k _
    · intro r hr
      have hrw : r < w := List.mem_range.mp hr
      by_cases h : r = k
      · simp [h]
      · have hgetD :
            ((List.range w).map (EmbedMulti.sliceStride entries w)).getD r [] =
              EmbedMulti.sliceStride entries w r := by
          rw [List.getD_eq_getElem?_getD, List.getElem?_map,
            List.getElem?_range hrw]
          rfl
        simp only [Function.comp, h, if_false, Option.getD_some]
        rw [hgetD, EmbedMulti.workerWrites_eq_map embF B hB]

/-- Witness for C1 (amended) at the concrete crash scenario of the
counterexample. -/
theorem c1_witness :
    1 ≤ 2 ∧ 1 ≤ 2048 ∧
      ∃ shards, EmbedMulti._chunkify ([1, 2] : List ℕ) 2 = .ok shards ∧
        EmbedMulti.mergeShards
            (EmbedMulti.diskAfterCrash (fun n : ℕ => n * n) 2048 shards 1) =
          (((List.range 2).filter (fun r => r ≠ 1)).map
            (fun r =>
              (EmbedMulti.sliceStride ([1, 2] : List ℕ) 2 r).map
                (fun n : ℕ => n * n))).flatten :=
  ⟨by decide, by decide,
    c1_merge_concatenates_surviving_shards (fun n : ℕ => n * n) 2048 [1, 2] 2 1
      (by decide) (by decide)⟩

/-- C5: immediately after build_faiss_index succeeds on a non-empty
embedded-chunk file, the number of index rows equals the number of
metadata records equals the number of input lines, and for every i the
vector at row i and the metadata record at position i both originate from
input line i: the vector is that line's embedding (normalized row-wise for
the cosine metric), and the metadata is that line's projection.  Neither
side is re-ordered independently. -/
theorem c5_vector_metadata_alignment (normRow : List ℚ → List ℚ)
    (metric : BuildFaiss.Metric) (rows : List BuildFaiss.EmbeddedRow)
    (hne : rows ≠ []) :
    ∃ vecs meta,
      BuildFaiss.build_faiss_index normRow metric rows = .ok (vecs, meta) ∧
      vecs.length = rows.length ∧ meta.length = rows.length ∧
      ∀ (i : ℕ) r, rows[i]? = some r →
        vecs[i]? = some
          (if metric = BuildFaiss.Metric.cosine then normRow r.embedding
           else r.embedding) ∧
        meta[i]? = some (BuildFaiss.metaOf r) := by
  refine ⟨(if metric = BuildFaiss.Metric.cosine
      then (rows.map (·.embedding)).map normRow
      else rows.map (·.embedding)),
    rows.map BuildFaiss.metaOf, ?_, ?_, by simp, ?_⟩
  · rw [BuildFaiss.build_faiss_index]
    rw [if_neg (by simpa [List.isEmpty_iff] using hne)]
  · by_cases h : metric = BuildFaiss.Metric.cosine <;> simp [h]
  · intro i r hr
    by_cases h : metric = BuildFaiss.Metric.cosine <;>
      simp [h, List.getElem?_map, hr]

/-- Witness for C5 at a one-line input file. -/
theorem c5_witness :
    ([⟨"a.txt", 0, "10.1/x", "T", "text", some 7, [1, 0]⟩] :
        List BuildFaiss.EmbeddedRow) ≠ [] ∧
      ∃ vecs meta,
        BuildFaiss.build_faiss_index id BuildFaiss.Metric.l2
            [⟨"a.txt", 0, "10.1/x", "T", "text", some 7, [1, 0]⟩] =
          .ok (vecs, meta) ∧
        vecs.length =
          ([⟨"a.txt", 0, "10.1/x", "T", "text", some 7, [1, 0]⟩] :
            List BuildFaiss.EmbeddedRow).length ∧
        meta.length =
          ([⟨"a.txt", 0, "10.1/x", "T", "text", some 7, [1, 0]⟩] :
            List BuildFaiss.EmbeddedRow).length ∧
        ∀ (i : ℕ) r,
          ([⟨"a.txt", 0, "10.1/x", "T", "text", some 7, [1, 0]⟩] :
            List BuildFaiss.EmbeddedRow)[i]? = some r →
          vecs[i]? = some
            (if BuildFaiss.Metric.l2 = BuildFaiss.Metric.cosine
             then id r.embedding else r.embedding) ∧
          meta[i]? = some (BuildFaiss.metaOf r) :=
  ⟨by decide, c5_vector_metadata_alignment id BuildFaiss.Metric.l2
    [⟨"a.txt", 0, "10.1/x", "T", "text", some 7, [1, 0]⟩] (by decide)⟩

namespace WebApp

/-- Membership in the listing: a name is listed exactly when some
subdirectory with that name exists and contains the index artifact. -/
theorem mem_list_databases (fs : DbRoot) (n : String) :
    n ∈ list_databases fs ↔ ∃ d ∈ fs, d.hasIndex = true ∧ d.name = n := by
  rw [list_databases, (List.perm_insertionSort _ _).mem_iff]
  simp only [List.mem_map, List.mem_filter]
  tauto

/-- Directory-root contents after a build that passed validation and whose
pipeline then failed: the crash-state directory is filtered out again by
the rmtree rollback. -/
theorem build_database_failed_fst (fs : DbRoot) (name : String) (ci : Bool)
    (h1 : validDbName name = true)
    (h2 : fs.any (fun d => d.name = name) = false) :
    (build_database fs name false ci).1 =
      ((fs ++ ([⟨name, false⟩] : DbRoot)).map fun d =>
          if d.name = name then (⟨name, ci⟩ : DbDir) else d).filter
        (fun d => d.name ≠ name) := by
  simp [build_database, h1, h2]

end WebApp

/-- C3: after a build operation whose pipeline fails, the target database
directory does not exist (no subdirectory of the database root carries the
target name) and the target name does not appear in the result of the
listing operation — regardless of whether the failing pipeline had already
written the index artifact before dying.  The best-effort deletion
(shutil.rmtree with ignore_errors=True) is modelled as succeeding; an
operating-system failure of the deletion itself is outside the embedding. -/
theorem c3_failed_build_not_listed (fs : WebApp.DbRoot) (name : String)
    (crashHasIndex : Bool)
    (h : (WebApp.build_database fs name false crashHasIndex).2 =
      WebApp.BuildResult.pipelineFailed) :
    (∀ d ∈ (WebApp.build_database fs name false crashHasIndex).1,
      d.name ≠ name) ∧
    name ∉ WebApp.list_databases
      (WebApp.build_database fs name false crashHasIndex).1 := by
  by_cases h1 : WebApp.validDbName name
  · by_cases h2 : fs.any (fun d => d.name = name)
    · simp [WebApp.build_database, h1, h2] at h
    · have hfst := WebApp.build_database_failed_fst fs name crashHasIndex h1
        (by simpa using h2)
      constructor
      · intro d hd
        rw [hfst] at hd
        have := (List.mem_filter.mp hd).2
        simpa using this
      · intro hmem
        obtain ⟨d, hd, _, hn⟩ :=
          (WebApp.mem_list_databases _ name).mp hmem
        rw [hfst] at hd
        have := (List.mem_filter.mp hd).2
        simp [hn] at this
  · simp [WebApp.build_database, h1] at h

/-- Witness for C3 at a concrete input: building "mydb" into an empty
root with a failing pipeline leaves no directory and an empty listing. -/
theorem c3_witness :
    (WebApp.build_database [] "mydb" false true).2 =
        WebApp.BuildResult.pipelineFailed ∧
      ((∀ d ∈ (WebApp.build_database [] "mydb" false true).1,
        d.name ≠ "mydb") ∧
      "mydb" ∉ WebApp.list_databases
        (WebApp.build_database [] "mydb" false true).1) :=
  ⟨by decide, c3_failed_build_not_listed [] "mydb" true (by decide)⟩

/-- C4 counterexample: the claim states that a failure of the audit-log
write does not change what run_rag returns.  The logging step of run_rag
(rag_server.py lines 169-173) is not wrapped in any exception handler, so
when the log directory is unwritable the OS error propagates out of
run_rag and the generated answer is not returned at all: at the concrete
input below the result is the propagated error, not the (answer, citation
map) pair the claim requires.  (The web layer, app.py lines 245-249,
catches the exception and replaces the answer with a warning message.) -/
theorem c4_log_failure_counterexample :
    RagServer.run_rag_from_reply (fun _ => none) (some "the answer")
        (.error "log dir not writable") =
      .error "log dir not writable" ∧
    RagServer.run_rag_from_reply (fun _ => none) (some "the answer")
        (.error "log dir not writable") ≠
      .ok ("the answer",
        RagServer.citationMap (fun _ => none) "the answer") :=
  ⟨rfl, by simp [RagServer.run_rag_from_reply]⟩

/-- C4 (amended): the audit-log write is unguarded, so its outcome
determines what run_rag returns for a generated answer: when the write
succeeds, run_rag returns the generated answer together with the citation
map; when the write raises, the exception propagates out of run_rag and
nothing is returned. -/
theorem c4_log_outcome_determines_result
    (lookup : String → Option RagServer.ChunkMeta) (r : String)
    (logWrite : Except String Unit) :
    (logWrite = .ok () →
      RagServer.run_rag_from_reply lookup (some r) logWrite =
        .ok (r, RagServer.citationMap lookup r)) ∧
    (∀ e, logWrite = .error e →
      RagServer.run_rag_from_reply lookup (some r) logWrite = .error e) := by
  constructor
  · rintro rfl
    rfl
  · rintro e rfl
    rfl

/-- Witness for C4 (amended) at a concrete input with a succeeding log
write. -/
theorem c4_witness :
    (Except.ok () : Except String Unit) = .ok () ∧
      RagServer.run_rag_from_reply (fun _ => none) (some "ans") (.ok ()) =
        .ok ("ans", RagServer.citationMap (fun _ => none) "ans") :=
  ⟨rfl, (c4_log_outcome_determines_result (fun _ => none) "ans" (.ok ())).1 rfl⟩

namespace DbPath

/-- The load_db acceptance condition is exactly: the resolved path starts
with the database root (being the root itself included). -/
theorem loadDbAccepts_iff (root : List String) (name : String) :
    loadDbAccepts root name = true ↔
      (resolvedDbPath root name).take root.length = root := by
  rw [loadDbAccepts]
  simp only [Bool.or_eq_true, isUnder, Bool.and_eq_true, decide_eq_true_eq,
    beq_iff_eq]
  constructor
  · rintro (⟨_, h2⟩ | h)
    · exact h2
    · rw [h]
      exact List.take_length root
  · intro htake
    by_cases hlen : root.length < (resolvedDbPath root name).length
    · exact Or.inl ⟨hlen, htake⟩
    · refine Or.inr ?_
      have hle : (resolvedDbPath root name).length ≤ root.length := by omega
      calc resolvedDbPath root name
          = (resolvedDbPath root name).take root.length :=
            (List.take_of_length_le hle).symm
        _ = root := htake

/-- The build-side path validation accepts only targets that start with
the database root (relative_to succeeding), and reports the resolved
target; both rejection branches precede the mkdir in the source. -/
theorem buildPathCheck_accepted (root : List String) (name : String)
    (p : List String) (h : buildPathCheck root name = .acceptedAt p) :
    p = resolvedDbPath root name ∧ p.take root.length = root := by
  rw [buildPathCheck] at h
  by_cases h1 : WebApp.validDbName name
  · rw [if_neg (by simp [h1])] at h
    by_cases h2 : (resolvedDbPath root name).take root.length = root
    · rw [if_neg (by simp [h2])] at h
      cases h
      exact ⟨rfl, h2⟩
    · rw [if_pos (by simp [h2])] at h
      cases h
  · rw [if_pos (by simp [h1])] at h
    cases h

end DbPath

/-- C9 counterexample: the claim states that every name accepted by
load_db resolves to a path strictly inside the database root.  The check
at rag_server.py lines 74-75 explicitly also accepts db_path equal to
DB_BASE_PATH itself: the name "." (which also passes the build-side regex)
resolves to the root, is not under the root, and is accepted by both the
load_db check and the build-side path validation. -/
theorem c9_root_itself_accepted_counterexample :
    DbPath.loadDbAccepts ["srv", "dbs"] "." = true ∧
    DbPath.resolvedDbPath ["srv", "dbs"] "." = ["srv", "dbs"] ∧
    DbPath.isUnder ["srv", "dbs"]
      (DbPath.resolvedDbPath ["srv", "dbs"] ".") = false ∧
    DbPath.buildPathCheck ["srv", "dbs"] "." =
      .acceptedAt ["srv", "dbs"] :=
  ⟨by decide, by decide, by decide, by decide⟩

/-- C9 (amended): load_db accepts a database name exactly when its
resolved path starts with the configured database root — strictly inside
or the root itself — and hence raises ValueError, before reading any file,
for every name whose resolved path lies outside the root (e.g. ".." or
absolute names escaping the root); the build operation likewise rejects
any name resolving outside the root (next to its stricter character
filter) before creating any directory.  Accepted names are thus never
outside the root, but not necessarily strictly inside it: "." resolves to
the root itself and is accepted (see the counterexample). -/
theorem c9_path_containment (root : List String) (name : String) :
    (DbPath.loadDbAccepts root name = true ↔
      (DbPath.resolvedDbPath root name).take root.length = root) ∧
    ((DbPath.resolvedDbPath root name).take root.length ≠ root →
      DbPath.loadDbAccepts root name = false) ∧
    (∀ p, DbPath.buildPathCheck root name = .acceptedAt p →
      p = DbPath.resolvedDbPath root name ∧ p.take root.length = root) := by
  refine ⟨DbPath.loadDbAccepts_iff root name, ?_, ?_⟩
  · intro hout
    cases hacc : DbPath.loadDbAccepts root name
    · rfl
    · exact absurd ((DbPath.loadDbAccepts_iff root name).mp hacc) hout
  · intro p hp
    exact DbPath.buildPathCheck_accepted root name p hp

/-- Witness for C9 (amended) at a concrete input: ".." resolves to the
parent of the root and load_db rejects it. -/
theorem c9_witness :
    (DbPath.resolvedDbPath ["srv", "dbs"] "..").take
        (["srv", "dbs"] : List String).length ≠ ["srv", "dbs"] ∧
      DbPath.loadDbAccepts ["srv", "dbs"] ".." = false :=
  ⟨by decide, (c9_path_containment ["srv", "dbs"] "..").2.1 (by decide)⟩

namespace RagServer

/-- A whitespace character is not a digit. -/
theorem space_not_digit {c : Char} (h : isSpaceCh c = true) :
    isDigitCh c = false := by
  simp only [isSpaceCh, Bool.or_eq_true, decide_eq_true_eq] at h
  rcases h with ((((h | h) | h) | h) | h) | h <;> subst h <;> decide

/-- A digit is not whitespace. -/
theorem digit_not_space {c : Char} (h : isDigitCh c = true) :
    isSpaceCh c = false := by
  cases hs : isSpaceCh c
  · rfl
  · rw [space_not_digit hs] at h
    cases h

/-- A whitespace character is not a comma. -/
theorem space_not_comma {c : Char} (h : isSpaceCh c = true) : c ≠ ',' := by
  intro hc
  subst hc
  simp [isSpaceCh] at h

/-- A digit is not a comma. -/
theorem digit_not_comma {c : Char} (h : isDigitCh c = true) : c ≠ ',' := by
  intro hc
  subst hc
  simp [isDigitCh, Char.isDigit] at h

/-- dropWhile is the identity when no element satisfies the predicate. -/
theorem dropWhile_all_false {p : Char → Bool} :
    ∀ {l : List Char}, (∀ c ∈ l, p c = false) → l.dropWhile p = l := by
  intro l h
  cases l with
  | nil => rfl
  | cons c cs =>
    rw [List.dropWhile_cons_of_neg]
    simp [h c (by simp)]

/-- dropWhile drops a leading block of satisfying elements wholesale. -/
theorem dropWhile_append_all_true {p : Char → Bool} :
    ∀ (sp l : List Char), (∀ c ∈ sp, p c = true) →
      (sp ++ l).dropWhile p = l.dropWhile p := by
  intro sp
  induction sp with
  | nil => intro l _; rfl
  | cons c cs ih =>
    intro l h
    rw [List.cons_append, List.dropWhile_cons_of_pos (h c (by simp))]
    exact ih l (fun d hd => h d (by simp [hd]))

/-- Stripping an all-digit token is the identity. -/
theorem stripChars_of_digits {ds : List Char}
    (h : ∀ c ∈ ds, isDigitCh c = true) : stripChars ds = ds := by
  rw [stripChars, dropWhile_all_false (fun c hc => digit_not_space (h c hc)),
    dropWhile_all_false
      (fun c hc => digit_not_space (h c (List.mem_reverse.mp hc))),
    List.reverse_reverse]

/-- Stripping ignores a leading whitespace block. -/
theorem stripChars_space_append {sp l : List Char}
    (h : ∀ c ∈ sp, isSpaceCh c = true) : stripChars (sp ++ l) = stripChars l := by
  rw [stripChars, stripChars, dropWhile_append_all_true sp l h]

end RagServer

namespace RagServer

/-- splitComma never returns an empty piece list. -/
theorem splitComma_ne_nil : ∀ cs : List Char, splitComma cs ≠ [] := by
  intro cs
  cases cs with
  | nil => simp [splitComma]
  | cons c cs' =>
    by_cases h : c = ','
    · simp [splitComma, h]
    · simp only [splitComma, if_neg h]
      cases hs : splitComma cs' <;> simp

/-- Splitting after a comma-free block prepends the block to the first
piece. -/
theorem splitComma_append_no_comma :
    ∀ (xs ys : List Char), (∀ c ∈ xs, c ≠ ',') →
      ∃ h t, splitComma ys = h :: t ∧
        splitComma (xs ++ ys) = (xs ++ h) :: t := by
  intro xs
  induction xs with
  | nil =>
    intro ys _
    cases hy : splitComma ys with
    | nil => exact absurd hy (splitComma_ne_nil ys)
    | cons h t => exact ⟨h, t, rfl, by simpa using hy⟩
  | cons x xs' ih =>
    intro ys hcomma
    obtain ⟨h, t, hy, hx⟩ := ih ys (fun c hc => hcomma c (by simp [hc]))
    refine ⟨h, t, hy, ?_⟩
    rw [List.cons_append]
    simp only [splitComma, if_neg (hcomma x (by simp)), hx]
    simp

/-- Every successful matchAfterDigits capture is in the tail grammar. -/
theorem matchAfterDigits_groupTail :
    ∀ fuel cs g rest, matchAfterDigits fuel cs = some (g, rest) →
      GroupTail g := by
  intro fuel
  induction fuel with
  | zero =>
    intro cs g rest h
    exact absurd h (by simp [matchAfterDigits])
  | succ fuel ih =>
    intro cs g rest h
    cases cs with
    | nil => exact absurd h (by simp [matchAfterDigits])
    | cons c cs' =>
      simp only [matchAfterDigits] at h
      split at h
      case isTrue hc =>
        rw [Option.some.injEq, Prod.mk.injEq] at h
        rw [← h.1]
        exact GroupTail.nil
      case isFalse hc =>
        split at h
        case isFalse hc2 => exact absurd h (by simp)
        case isTrue hc2 =>
          split at h
          case isTrue hds => exact absurd h (by simp)
          case isFalse hds =>
            split at h
            case h_1 g' rest' hm =>
              rw [Option.some.injEq, Prod.mk.injEq] at h
              rw [← h.1]
              refine GroupTail.cons _ _ _
                (fun d hd => List.mem_takeWhile_imp hd)
                (fun hnil => hds (by simp [hnil]))
                (fun d hd => List.mem_takeWhile_imp hd)
                (ih _ _ _ hm)
            case h_2 => exact absurd h (by simp)

/-- Every successful matchCitation capture is a nonempty digit run
followed by a tail in the group grammar. -/
theorem matchCitation_shape :
    ∀ cs g rest, matchCitation cs = some (g, rest) →
      ∃ ds tail, g = ds ++ tail ∧ ds ≠ [] ∧
        (∀ c ∈ ds, isDigitCh c = true) ∧ GroupTail tail := by
  intro cs g rest h
  cases cs with
  | nil => exact absurd h (by simp [matchCitation])
  | cons c cs' =>
    simp only [matchCitation] at h
    split at h
    case isFalse hc => exact absurd h (by simp)
    case isTrue hc =>
      split at h
      case isTrue hds => exact absurd h (by simp)
      case isFalse hds =>
        split at h
        case h_1 g' rest' hm =>
          rw [Option.some.injEq, Prod.mk.injEq] at h
          exact ⟨cs'.takeWhile isDigitCh, g', h.1.symm,
            fun hnil => hds (by simp [hnil]),
            fun d hd => List.mem_takeWhile_imp hd,
            matchAfterDigits_groupTail _ _ _ _ hm⟩
        case h_2 => exact absurd h (by simp)

/-- Every group the findall scan emits is a nonempty digit run followed by
a tail in the group grammar. -/
theorem findGroupsAux_shape :
    ∀ fuel cs g, g ∈ findGroupsAux fuel cs →
      ∃ ds tail, g = ds ++ tail ∧ ds ≠ [] ∧
        (∀ c ∈ ds, isDigitCh c = true) ∧ GroupTail tail := by
  intro fuel
  induction fuel with
  | zero =>
    intro cs g h
    exact absurd h (by simp [findGroupsAux])
  | succ fuel ih =>
    intro cs g h
    cases cs with
    | nil => exact absurd h (by simp [findGroupsAux])
    | cons c cs' =>
      simp only [findGroupsAux] at h
      split at h
      case _ g' rest' hm =>
        rcases List.mem_cons.mp h with rfl | htail
        · exact matchCitation_shape _ _ _ hm
        · exact ih _ _ htail
      case _ => exact ih _ _ h

end RagServer

namespace RagServer

/-- Splitting a grammar-conforming capture group on commas yields pieces
that strip to nonempty all-digit tokens. -/
theorem splitComma_group_pieces :
    ∀ tail, GroupTail tail → ∀ ds, ds ≠ [] →
      (∀ c ∈ ds, isDigitCh c = true) →
      ∀ piece ∈ splitComma (ds ++ tail),
        stripChars piece ≠ [] ∧ ∀ c ∈ stripChars piece, isDigitCh c = true := by
  intro tail htail
  induction htail with
  | nil =>
    intro ds hne hdig piece hp
    obtain ⟨h, t, hy, hx⟩ := splitComma_append_no_comma ds []
      (fun c hc => digit_not_comma (hdig c hc))
    rw [show splitComma [] = [[]] from rfl] at hy
    obtain ⟨rfl, rfl⟩ : [] = h ∧ ([] : List (List Char)) = t := by
      rw [List.cons.injEq] at hy
      exact hy
    rw [hx] at hp
    simp only [List.append_nil, List.mem_singleton] at hp
    subst hp
    rw [stripChars_of_digits hdig]
    exact ⟨hne, hdig⟩
  | cons sp ds2 g2 hsp hne2 hdig2 _ ih =>
    intro ds hne hdig piece hp
    obtain ⟨h, t, hy, hx⟩ :=
      splitComma_append_no_comma ds (',' :: (sp ++ (ds2 ++ g2)))
        (fun c hc => digit_not_comma (hdig c hc))
    rw [show splitComma (',' :: (sp ++ (ds2 ++ g2))) =
        [] :: splitComma (sp ++ (ds2 ++ g2)) by simp [splitComma]] at hy
    obtain ⟨rfl, rfl⟩ : [] = h ∧ splitComma (sp ++ (ds2 ++ g2)) = t := by
      rw [List.cons.injEq] at hy
      exact hy
    rw [hx] at hp
    rcases List.mem_cons.mp hp with rfl | hmem
    · rw [List.append_nil, stripChars_of_digits hdig]
      exact ⟨hne, hdig⟩
    · obtain ⟨h2, t2, hy2, hx2⟩ := splitComma_append_no_comma sp (ds2 ++ g2)
        (fun c hc => space_not_comma (hsp c hc))
      rw [hx2] at hmem
      rcases List.mem_cons.mp hmem with rfl | hmem2
      · have hgood := ih ds2 hne2 hdig2 h2
          (by rw [hy2]; exact List.mem_cons_self _ _)
        rw [stripChars_space_append hsp]
        exact hgood
      · exact ih ds2 hne2 hdig2 piece
          (by rw [hy2]; exact List.mem_cons_of_mem _ hmem2)

/-- Every cited token is a nonempty string of decimal digits. -/
theorem citedTokens_digits (reply : String) :
    ∀ t ∈ citedTokens reply, t ≠ "" ∧ t.toList.all isDigitCh = true := by
  intro t ht
  rw [citedTokens] at ht
  obtain ⟨inner, hinner, htin⟩ := List.mem_flatten.mp (List.mem_dedup.mp ht)
  obtain ⟨g, hg, rfl⟩ := List.mem_map.mp hinner
  obtain ⟨piece, hpiece, rfl⟩ := List.mem_map.mp htin
  obtain ⟨ds, tail, rfl, hne, hdig, htail⟩ :=
    findGroupsAux_shape reply.toList.length reply.toList g hg
  have hgood := splitComma_group_pieces tail htail ds hne hdig piece hpiece
  constructor
  · intro hempty
    apply hgood.1
    have hchars : (String.mk (stripChars piece)).toList =
        ("" : String).toList := by rw [hempty]
    simpa using hchars
  · rw [List.all_eq_true]
    intro c hc
    exact hgood.2 c (by simpa using hc)

end RagServer

/-- C8 counterexample: the claim states that citation resolution collects
the distinct cited integers and maps each cited rank present in the
per-query lookup to that rank's recorded DOI.  The code keys everything by
the token string, not by its integer value (rag_server.py lines 148-157):
for the answer text "[01]" the cited integer set is {1} and rank 1 is
present in the lookup with a recorded DOI, yet the resolution output has
the single key "01" mapped to the "N/A" sentinel — the DOI of rank 1
appears nowhere, and the key "1" is absent. -/
theorem c8_integer_citation_counterexample :
    RagServer.citedIntegers "[01]" = [1] ∧
    RagServer.citedTokens "[01]" = ["01"] ∧
    RagServer.lookupRank1 "1" = some ⟨some "10.1000/demo"⟩ ∧
    RagServer.citationMap RagServer.lookupRank1 "[01]" "01" = some "N/A" ∧
    RagServer.citationMap RagServer.lookupRank1 "[01]" "1" = none :=
  ⟨by decide, by decide, by decide, by decide, by decide⟩

/-- C8 (amended): citation resolution scans the answer text for bracketed
comma-separated digit groups and collects the distinct cited rank TOKENS
(nonempty digit strings, compared as strings, not as integers); the
resulting map has exactly those tokens as keys, each mapped to the DOI the
lookup records under that exact string, with the "N/A" sentinel when the
lookup has no entry for the token (or the entry has no DOI) — and the
computation is total, so it never raises.  On text containing "[1]" and
"[2, 5]" the cited token set is {"1", "2", "5"}. -/
theorem c8_citation_resolution_stringly
    (lookup : String → Option RagServer.ChunkMeta) (reply : String) :
    (RagServer.citedTokens reply).Nodup ∧
    (∀ t ∈ RagServer.citedTokens reply,
      t ≠ "" ∧ t.toList.all RagServer.isDigitCh = true ∧
      RagServer.citationMap lookup reply t =
        some (RagServer.citationValue lookup t)) ∧
    (∀ t ∉ RagServer.citedTokens reply,
      RagServer.citationMap lookup reply t = none) ∧
    RagServer.citedTokens "text [1] and [2, 5] more" = ["1", "2", "5"] := by
  refine ⟨List.nodup_dedup _, ?_, ?_, by decide⟩
  · intro t ht
    obtain ⟨h1, h2⟩ := RagServer.citedTokens_digits reply t ht
    exact ⟨h1, h2, by simp [RagServer.citationMap, ht]⟩
  · intro t ht
    simp [RagServer.citationMap, ht]

/-- Witness for C8 (amended) at a concrete input. -/
theorem c8_witness :
    "5" ∈ RagServer.citedTokens "see [2, 5]" ∧
      ("5" ≠ "" ∧ "5".toList.all RagServer.isDigitCh = true ∧
        RagServer.citationMap RagServer.lookupRank1 "see [2, 5]" "5" =
          some (RagServer.citationValue RagServer.lookupRank1 "5")) :=
  ⟨by decide,
    (c8_citation_resolution_stringly RagServer.lookupRank1 "see [2, 5]").2.1
      "5" (by decide)⟩
